import Mathlib

/-
Verification of the genemunge normalization core against its specification.

The repository ships only the test suite for the `normalize` module; the
module itself is absent, so every definition below is modelled from the
specification of the normalization and variance-removal engine
(Deduplicator, Imputer, UnitConverter/Normalizer, UnwantedVariationRemover).
Real-number quantities are modelled with exact arithmetic (ℚ where the
operations are rational, ℝ where logarithms, exponentials or singular
values are involved); "within floating-point tolerance" in the
specification becomes exact equality over exact arithmetic.
-/

namespace Genemunge

/-! ### Imputer

Modelled from the spec: `impute(matrix, scale=0.5)` — for each row
independently, find the minimum strictly-positive value in that row and
replace every zero entry with `scale × rowMinimumPositive`; rows with no
positive entries are left untouched.  The matrix is a list of rows of
rational entries. -/

/-- Minimum strictly-positive value of a row, `none` when the row has no
positive entry. -/
def minPos : List ℚ → Option ℚ
  | [] => none
  | x :: xs =>
      let r := minPos xs
      if 0 < x then
        match r with
        | none => some x
        | some y => some (min x y)
      else r

/-- Modelled from the spec: per-row imputation step of the Imputer. -/
def imputeRow (scale : ℚ) (row : List ℚ) : List ℚ :=
  match minPos row with
  | none => row
  | some mp => row.map (fun v => if v = 0 then scale * mp else v)

/-- Modelled from the spec: `impute(matrix, scale)` of the Imputer,
applied row by row. -/
def impute (vals : List (List ℚ)) (scale : ℚ) : List (List ℚ) :=
  vals.map (imputeRow scale)

/-- Elementwise product of the imputed matrix with the indicator of the
original matrix's nonzero entries: `imp * (orig != 0)`. -/
def maskByNonzero (imp orig : List (List ℚ)) : List (List ℚ) :=
  (imp.zip orig).map (fun p => (p.1.zip p.2).map
    (fun q => if q.2 ≠ 0 then q.1 else 0))

lemma minPos_eq_none_iff (l : List ℚ) :
    minPos l = none ↔ ∀ x ∈ l, ¬ 0 < x := by
  induction l with
  | nil => simp [minPos]
  | cons x xs ih =>
      by_cases hx : 0 < x
      · simp only [minPos, if_pos hx]
        constructor
        · intro h
          cases hmp : minPos xs <;> simp [hmp] at h
        · intro h
          exact absurd hx (h x (by simp))
      · simp only [minPos, if_neg hx]
        rw [ih]
        constructor
        · intro h y hy
          rcases List.mem_cons.mp hy with rfl | hy'
          · exact hx
          · exact h y hy'
        · intro h y hy
          exact h y (List.mem_cons_of_mem _ hy)

lemma minPos_spec (l : List ℚ) (m : ℚ) (hm : minPos l = some m) :
    m ∈ l ∧ 0 < m ∧ ∀ x ∈ l, 0 < x → m ≤ x := by
  induction l generalizing m with
  | nil => simp [minPos] at hm
  | cons x xs ih =>
      by_cases hx : 0 < x
      · simp only [minPos, if_pos hx] at hm
        cases hmp : minPos xs with
        | none =>
            rw [hmp] at hm
            simp only [Option.some.injEq] at hm
            subst hm
            refine ⟨by simp, hx, ?_⟩
            intro y hy hy0
            rcases List.mem_cons.mp hy with rfl | hy'
            · exact le_refl _
            · exact absurd hy0 ((minPos_eq_none_iff xs).mp hmp y hy')
        | some y =>
            rw [hmp] at hm
            simp only [Option.some.injEq] at hm
            obtain ⟨hymem, hypos, hymin⟩ := ih y hmp
            subst hm
            rcases le_total x y with hxy | hxy
            · rw [min_eq_left hxy]
              refine ⟨by simp, hx, ?_⟩
              intro z hz hz0
              rcases List.mem_cons.mp hz with rfl | hz'
              · exact le_refl _
              · exact le_trans hxy (hymin z hz' hz0)
            · rw [min_eq_right hxy]
              refine ⟨List.mem_cons_of_mem _ hymem, hypos, ?_⟩
              intro z hz hz0
              rcases List.mem_cons.mp hz with rfl | hz'
              · exact hxy
              · exact hymin z hz' hz0
      · simp only [minPos, if_neg hx] at hm
        obtain ⟨hmem, hpos, hmin⟩ := ih m hm
        refine ⟨List.mem_cons_of_mem _ hmem, hpos, ?_⟩
        intro z hz hz0
        rcases List.mem_cons.mp hz with rfl | hz'
        · exact absurd hz0 hx
        · exact hmin z hz' hz0

lemma minPos_of_exists_pos (l : List ℚ) (h : ∃ x ∈ l, 0 < x) :
    ∃ m, minPos l = some m := by
  cases hmp : minPos l with
  | none =>
      obtain ⟨x, hx, hx0⟩ := h
      exact absurd hx0 ((minPos_eq_none_iff l).mp hmp x hx)
  | some m => exact ⟨m, rfl⟩

lemma mask_zip_map (fn : ℚ → ℚ) (hfn : ∀ v, v ≠ 0 → fn v = v) (row : List ℚ) :
    ((row.map fn).zip row).map (fun q => if q.2 ≠ 0 then q.1 else 0) = row := by
  induction row with
  | nil => simp
  | cons v vs ih =>
      simp only [List.map_cons, List.zip_cons_cons, List.map_cons,
        List.cons.injEq]
      refine ⟨?_, ih⟩
      by_cases hv : v = 0
      · simp [hv]
      · simp [hv, hfn v hv]

lemma imputeRow_mask (scale : ℚ) (row : List ℚ) :
    ((imputeRow scale row).zip row).map (fun q => if q.2 ≠ 0 then q.1 else 0)
      = row := by
  unfold imputeRow
  cases h : minPos row with
  | none =>
      have h0 := mask_zip_map (fun v => v) (fun v _ => rfl) row
      simpa using h0
  | some mp =>
      exact mask_zip_map _ (fun v hv => by simp [hv]) row

/-- C5: for every non-negative input matrix and positive scale, `impute`
works row by row; in a row holding at least one strictly positive value,
every zero entry becomes `scale` times that row's minimum strictly
positive value (a value of the row, positive, and a lower bound of all
positive entries of the row), while a row with no positive entry is
returned unchanged. -/
theorem impute_replaces_zeros (vals : List (List ℚ)) (scale : ℚ)
    (hscale : 0 < scale) (hnn : ∀ row ∈ vals, ∀ v ∈ row, 0 ≤ v) :
    impute vals scale = vals.map (imputeRow scale) ∧
    ∀ row ∈ vals,
      ((∃ x ∈ row, 0 < x) →
        ∃ mp, mp ∈ row ∧ 0 < mp ∧ (∀ x ∈ row, 0 < x → mp ≤ x) ∧
          ∀ j : ℕ, row[j]? = some 0 →
            (imputeRow scale row)[j]? = some (scale * mp)) ∧
      ((¬ ∃ x ∈ row, 0 < x) → imputeRow scale row = row) := by
  refine ⟨rfl, ?_⟩
  intro row _
  constructor
  · intro hex
    obtain ⟨mp, hmp⟩ := minPos_of_exists_pos row hex
    obtain ⟨hmem, hpos, hmin⟩ := minPos_spec row mp hmp
    refine ⟨mp, hmem, hpos, hmin, ?_⟩
    intro j hj
    unfold imputeRow
    rw [hmp, List.getElem?_map, hj]
    simp
  · intro hnex
    unfold imputeRow
    have : minPos row = none := by
      rw [minPos_eq_none_iff]
      intro x hx hx0
      exact hnex ⟨x, hx, hx0⟩
    rw [this]

/-- Witness for C5 at the concrete matrix `[[0, 2, 4], [0, 0]]` with
scale `1/2`. -/
theorem impute_replaces_zeros_witness :
    (0 : ℚ) < 1/2 ∧
    (impute [[0, 2, 4], [0, 0]] (1/2) = [[0, 2, 4], [0, 0]].map (imputeRow (1/2)) ∧
    ∀ row ∈ [[(0 : ℚ), 2, 4], [0, 0]],
      ((∃ x ∈ row, 0 < x) →
        ∃ mp, mp ∈ row ∧ 0 < mp ∧ (∀ x ∈ row, 0 < x → mp ≤ x) ∧
          ∀ j : ℕ, row[j]? = some 0 →
            (imputeRow (1/2) row)[j]? = some ((1/2) * mp)) ∧
      ((¬ ∃ x ∈ row, 0 < x) → imputeRow (1/2) row = row)) :=
  ⟨by norm_num,
   impute_replaces_zeros [[0, 2, 4], [0, 0]] (1/2) (by norm_num)
     (by decide)⟩

/-- C6: imputation never alters entries that are already nonzero — masking
the output of `impute` by the positions where the input is nonzero
reproduces the input exactly, for every non-negative matrix and every
scale. -/
theorem impute_preserves_nonzero (vals : List (List ℚ)) (scale : ℚ)
    (hnn : ∀ row ∈ vals, ∀ v ∈ row, 0 ≤ v) :
    maskByNonzero (impute vals scale) vals = vals := by
  unfold maskByNonzero impute
  induction vals with
  | nil => simp
  | cons r rs ih =>
      simp only [List.map_cons, List.zip_cons_cons, List.map_cons,
        List.cons.injEq]
      exact ⟨imputeRow_mask scale r,
        ih (fun row hrow => hnn row (List.mem_cons_of_mem _ hrow))⟩

/-- Witness for C6 at the concrete matrix `[[0, 2], [3, 0]]` with
scale `1/2`. -/
theorem impute_preserves_nonzero_witness :
    maskByNonzero (impute [[0, 2], [3, 0]] (1/2)) [[0, 2], [3, 0]]
      = [[(0 : ℚ), 2], [3, 0]] :=
  impute_preserves_nonzero [[0, 2], [3, 0]] (1/2) (by decide)

/-! ### Deduplicator

Modelled from the spec: `deduplicate(matrix)` groups columns by label,
sums each group element-wise, and emits one output column per distinct
label, in order of first appearance in the input; row labels and order
are unchanged. -/

/-- A labeled expression matrix: row labels, column labels and a list of
rows of rational entries. -/
@[ext]
structure DataFrame where
  rows : List String
  cols : List String
  vals : List (List ℚ)
  deriving DecidableEq

/-- Helper for `firstUniq`: drops the labels already seen. -/
def firstUniqAux (seen : List String) : List String → List String
  | [] => []
  | c :: cs =>
      if c ∈ seen then firstUniqAux seen cs
      else c :: firstUniqAux (c :: seen) cs

/-- The distinct labels of a list, in order of first appearance. -/
def firstUniq (l : List String) : List String := firstUniqAux [] l

/-- Element-wise sum, within one row, of the entries whose column label
matches `lab`. -/
def sumMatching (cols : List String) (row : List ℚ) (lab : String) : ℚ :=
  (((cols.zip row).filter (fun p => p.1 = lab)).map Prod.snd).sum

/-- Modelled from the spec: the Deduplicator's `deduplicate(matrix)`. -/
def deduplicate (df : DataFrame) : DataFrame :=
  { rows := df.rows
    cols := firstUniq df.cols
    vals := df.vals.map
      (fun row => (firstUniq df.cols).map (fun lab => sumMatching df.cols row lab)) }

lemma mem_firstUniqAux (l : List String) :
    ∀ (seen : List String) (a : String),
      a ∈ firstUniqAux seen l ↔ a ∈ l ∧ a ∉ seen := by
  induction l with
  | nil => intro seen a; simp [firstUniqAux]
  | cons c cs ih =>
      intro seen a
      by_cases hc : c ∈ seen
      · rw [firstUniqAux, if_pos hc, ih seen a]
        constructor
        · rintro ⟨h1, h2⟩; exact ⟨List.mem_cons_of_mem _ h1, h2⟩
        · rintro ⟨h1, h2⟩
          rcases List.mem_cons.mp h1 with rfl | h1'
          · exact absurd hc h2
          · exact ⟨h1', h2⟩
      · rw [firstUniqAux, if_neg hc]
        by_cases hac : a = c
        · subst hac; simp [hc]
        · simp only [List.mem_cons, hac, false_or, ih (c :: seen) a]

lemma mem_firstUniq (l : List String) : ∀ a, a ∈ firstUniq l ↔ a ∈ l := by
  intro a
  rw [firstUniq, mem_firstUniqAux]
  simp

lemma nodup_firstUniqAux (l : List String) :
    ∀ seen : List String, (firstUniqAux seen l).Nodup := by
  induction l with
  | nil => intro seen; simp [firstUniqAux]
  | cons c cs ih =>
      intro seen
      by_cases hc : c ∈ seen
      · rw [firstUniqAux, if_pos hc]; exact ih seen
      · rw [firstUniqAux, if_neg hc]
        refine List.nodup_cons.mpr ⟨?_, ih (c :: seen)⟩
        intro hmem
        have := (mem_firstUniqAux cs (c :: seen) c).mp hmem
        exact this.2 (List.mem_cons_self c seen)

lemma nodup_firstUniq (l : List String) : (firstUniq l).Nodup :=
  nodup_firstUniqAux l []

lemma sublist_firstUniqAux (l : List String) :
    ∀ seen : List String, List.Sublist (firstUniqAux seen l) l := by
  induction l with
  | nil => intro seen; simp [firstUniqAux]
  | cons c cs ih =>
      intro seen
      by_cases hc : c ∈ seen
      · rw [firstUniqAux, if_pos hc]
        exact (ih seen).cons c
      · rw [firstUniqAux, if_neg hc]
        exact (ih (c :: seen)).cons₂ c

lemma sublist_firstUniq (l : List String) : List.Sublist (firstUniq l) l :=
  sublist_firstUniqAux l []

lemma firstUniqAux_eq_self (l : List String) :
    ∀ seen : List String, l.Nodup → (∀ x ∈ l, x ∉ seen) →
      firstUniqAux seen l = l := by
  induction l with
  | nil => intro seen _ _; rfl
  | cons c cs ih =>
      intro seen hnd hdisj
      obtain ⟨hc, hcs⟩ := List.nodup_cons.mp hnd
      rw [firstUniqAux, if_neg (hdisj c (List.mem_cons_self c cs))]
      rw [ih (c :: seen) hcs]
      intro x hx hxs
      rcases List.mem_cons.mp hxs with rfl | hxs'
      · exact hc hx
      · exact hdisj x (List.mem_cons_of_mem _ hx) hxs'

lemma firstUniq_eq_self_of_nodup (l : List String) (h : l.Nodup) :
    firstUniq l = l :=
  firstUniqAux_eq_self l [] h (by simp)

lemma firstUniqAux_congr_seen (l : List String) :
    ∀ s₁ s₂ : List String, (∀ a, a ∈ s₁ ↔ a ∈ s₂) →
      firstUniqAux s₁ l = firstUniqAux s₂ l := by
  induction l with
  | nil => intro _ _ _; rfl
  | cons c cs ih =>
      intro s₁ s₂ hiff
      by_cases hc : c ∈ s₁
      · rw [firstUniqAux, if_pos hc, firstUniqAux, if_pos ((hiff c).mp hc)]
        exact ih s₁ s₂ hiff
      · rw [firstUniqAux, if_neg hc, firstUniqAux,
          if_neg (fun h => hc ((hiff c).mpr h))]
        congr 1
        apply ih
        intro a
        simp only [List.mem_cons]
        exact or_congr Iff.rfl (hiff a)

lemma firstUniqAux_filter (xs : List String) :
    ∀ (seen : List String) (c : String),
      firstUniqAux (c :: seen) xs
        = firstUniqAux seen (xs.filter (fun x => x ≠ c)) := by
  induction xs with
  | nil => intro _ _; rfl
  | cons x xt ih =>
      intro seen c
      by_cases hxc : x = c
      · subst hxc
        rw [firstUniqAux, if_pos (List.mem_cons_self x seen), List.filter_cons,
          if_neg (by simp)]
        exact ih seen x
      · rw [List.filter_cons, if_pos (by simp [hxc])]
        by_cases hxs : x ∈ seen
        · rw [firstUniqAux, if_pos (List.mem_cons_of_mem _ hxs), firstUniqAux,
            if_pos hxs]
          exact ih seen c
        · have hxcs : x ∉ c :: seen := by
            intro hmem
            rcases List.mem_cons.mp hmem with h | h
            · exact hxc h
            · exact hxs h
          rw [firstUniqAux, if_neg hxcs, firstUniqAux, if_neg hxs]
          congr 1
          calc firstUniqAux (x :: c :: seen) xt
              = firstUniqAux (c :: x :: seen) xt := by
                apply firstUniqAux_congr_seen
                intro a
                simp only [List.mem_cons]
                tauto
            _ = firstUniqAux (x :: seen) (xt.filter (fun y => y ≠ c)) :=
                ih (x :: seen) c

lemma firstUniq_cons_filter (c : String) (cs : List String) :
    firstUniq (c :: cs) = c :: firstUniq (cs.filter (fun x => x ≠ c)) := by
  show firstUniqAux [] (c :: cs) = _
  rw [firstUniqAux, if_neg (List.not_mem_nil c)]
  congr 1
  exact firstUniqAux_filter cs [] c

lemma indexOf_filter_lt (P : String → Bool) (cs : List String) (a b : String)
    (ha : a ∈ cs.filter P) (hb : b ∈ cs.filter P)
    (h : (cs.filter P).indexOf a < (cs.filter P).indexOf b) :
    cs.indexOf a < cs.indexOf b := by
  induction cs with
  | nil => simp at ha
  | cons c ct ih =>
      rw [List.filter_cons] at ha hb h
      by_cases hPc : P c = true
      · rw [if_pos hPc] at ha hb h
        by_cases hac : a = c
        · have hbc : b ≠ c := by
            intro hbc
            rw [List.indexOf_cons_eq _ hac.symm,
              List.indexOf_cons_eq _ hbc.symm] at h
            exact Nat.lt_irrefl 0 h
          rw [List.indexOf_cons_eq ct hac.symm,
            List.indexOf_cons_ne ct (fun h' => hbc h'.symm)]
          exact Nat.succ_pos _
        · have hbc : b ≠ c := by
            intro hbc
            rw [List.indexOf_cons_eq _ hbc.symm] at h
            exact Nat.not_lt_zero _ h
          rw [List.indexOf_cons_ne _ (fun h' => hac h'.symm),
            List.indexOf_cons_ne _ (fun h' => hbc h'.symm)] at h
          have ha' : a ∈ ct.filter P := by
            rcases List.mem_cons.mp ha with h' | h'
            · exact absurd h' hac
            · exact h'
          have hb' : b ∈ ct.filter P := by
            rcases List.mem_cons.mp hb with h' | h'
            · exact absurd h' hbc
            · exact h'
          rw [List.indexOf_cons_ne ct (fun h' => hac h'.symm),
            List.indexOf_cons_ne ct (fun h' => hbc h'.symm)]
          exact Nat.succ_lt_succ (ih ha' hb' (Nat.lt_of_succ_lt_succ h))
      · rw [if_neg hPc] at ha hb h
        have hac : c ≠ a := by
          intro h'
          exact hPc (h' ▸ (List.mem_filter.mp ha).2)
        have hbc : c ≠ b := by
          intro h'
          exact hPc (h' ▸ (List.mem_filter.mp hb).2)
        rw [List.indexOf_cons_ne ct hac, List.indexOf_cons_ne ct hbc]
        exact Nat.succ_lt_succ (ih ha hb h)

lemma firstUniq_pairwise_aux :
    ∀ (N : ℕ) (l : List String), l.length ≤ N →
      List.Pairwise (fun a b => l.indexOf a < l.indexOf b) (firstUniq l) := by
  intro N
  induction N with
  | zero =>
      intro l hl
      have h0 : l = [] := List.eq_nil_of_length_eq_zero (Nat.le_zero.mp hl)
      subst h0
      exact List.Pairwise.nil
  | succ N ih =>
      intro l hl
      cases l with
      | nil => exact List.Pairwise.nil
      | cons c cs =>
          have hcs : cs.length ≤ N :=
            Nat.succ_le_succ_iff.mp (by simpa [List.length_cons] using hl)
          rw [firstUniq_cons_filter]
          refine List.Pairwise.cons ?_ ?_
          · intro b hb
            have hbf : b ∈ cs.filter (fun x => x ≠ c) :=
              (mem_firstUniq _ b).mp hb
            have hbne : b ≠ c := by
              simpa using (List.mem_filter.mp hbf).2
            rw [List.indexOf_cons_self,
              List.indexOf_cons_ne cs (fun h' => hbne h'.symm)]
            exact Nat.succ_pos _
          · have hpair := ih (cs.filter (fun x => x ≠ c))
              (le_trans (List.length_filter_le _ _) hcs)
            refine List.Pairwise.imp_of_mem ?_ hpair
            intro a b ha hb hab
            have ha' : a ∈ cs.filter (fun x => x ≠ c) :=
              (mem_firstUniq _ a).mp ha
            have hb' : b ∈ cs.filter (fun x => x ≠ c) :=
              (mem_firstUniq _ b).mp hb
            have hane : a ≠ c := by
              simpa using (List.mem_filter.mp ha').2
            have hbne : b ≠ c := by
              simpa using (List.mem_filter.mp hb').2
            rw [List.indexOf_cons_ne cs (fun h' => hane h'.symm),
              List.indexOf_cons_ne cs (fun h' => hbne h'.symm)]
            exact Nat.succ_lt_succ (indexOf_filter_lt _ cs a b ha' hb' hab)

lemma firstUniq_pairwise (l : List String) :
    List.Pairwise (fun a b => l.indexOf a < l.indexOf b) (firstUniq l) :=
  firstUniq_pairwise_aux l.length l (le_refl _)

lemma toFinset_firstUniq (l : List String) :
    (firstUniq l).toFinset = l.toFinset := by
  ext a
  simp [List.mem_toFinset, mem_firstUniq]

lemma length_firstUniq (l : List String) :
    (firstUniq l).length = l.toFinset.card := by
  rw [← toFinset_firstUniq, List.toFinset_card_of_nodup (nodup_firstUniq l)]

lemma sumMatching_cons (c : String) (cs : List String) (v : ℚ) (vs : List ℚ)
    (lab : String) :
    sumMatching (c :: cs) (v :: vs) lab
      = (if c = lab then v else 0) + sumMatching cs vs lab := by
  by_cases h : c = lab <;> simp [sumMatching, List.filter_cons, h]

lemma sumMatching_eq_zero_of_not_mem (cols : List String) (row : List ℚ)
    (lab : String) (h : lab ∉ cols) : sumMatching cols row lab = 0 := by
  induction cols generalizing row with
  | nil => simp [sumMatching]
  | cons c cs ih =>
      cases row with
      | nil => simp [sumMatching]
      | cons v vs =>
          rw [sumMatching_cons]
          have hc : c ≠ lab := fun hcl => h (hcl ▸ List.mem_cons_self c cs)
          rw [if_neg hc, ih vs (fun hl => h (List.mem_cons_of_mem _ hl)), add_zero]

lemma sumMatching_eq_sum (cols : List String) (row : List ℚ) (lab : String)
    (hlen : row.length = cols.length) :
    sumMatching cols row lab
      = ∑ p ∈ Finset.range cols.length,
          if cols.getD p "" = lab then row.getD p 0 else 0 := by
  induction cols generalizing row with
  | nil => simp [sumMatching]
  | cons c cs ih =>
      cases row with
      | nil => simp at hlen
      | cons v vs =>
          simp only [List.length_cons] at hlen ⊢
          rw [Finset.sum_range_succ', sumMatching_cons]
          simp only [List.getD_cons_succ, List.getD_cons_zero]
          rw [ih vs (Nat.succ_injective hlen)]
          ring

lemma map_sumMatching_self (cols : List String) (row : List ℚ)
    (hnd : cols.Nodup) (hlen : row.length = cols.length) :
    cols.map (fun lab => sumMatching cols row lab) = row := by
  induction cols generalizing row with
  | nil =>
      cases row with
      | nil => rfl
      | cons v vs => simp at hlen
  | cons c cs ih =>
      cases row with
      | nil => simp at hlen
      | cons v vs =>
          obtain ⟨hc, hcs⟩ := List.nodup_cons.mp hnd
          simp only [List.length_cons] at hlen
          simp only [List.map_cons, List.cons.injEq]
          constructor
          · rw [sumMatching_cons, if_pos rfl,
              sumMatching_eq_zero_of_not_mem cs vs c hc, add_zero]
          · have hmc : ∀ lab ∈ cs,
                sumMatching (c :: cs) (v :: vs) lab = sumMatching cs vs lab := by
              intro lab hlab
              rw [sumMatching_cons, if_neg (fun h => hc (by rw [h]; exact hlab)),
                zero_add]
            rw [List.map_congr_left hmc]
            exact ih vs hcs (Nat.succ_injective hlen)

/-- C7: `deduplicate` keeps the row labels and the number of rows, emits
exactly one column per distinct input label (its labels are duplicate
free, drawn from the input labels, in input sublist order, and their
count is the number of distinct input labels) ordered by first
appearance (along the output labels, the index of the first occurrence
in the input strictly increases), fills each output entry with the sum
of the input row's entries over the positions carrying that label, and
is the identity when the input labels are already unique. -/
theorem deduplicate_spec (df : DataFrame)
    (hrect : ∀ row ∈ df.vals, row.length = df.cols.length) :
    (deduplicate df).rows = df.rows ∧
    (deduplicate df).cols.Nodup ∧
    (∀ lab, lab ∈ (deduplicate df).cols ↔ lab ∈ df.cols) ∧
    List.Sublist (deduplicate df).cols df.cols ∧
    List.Pairwise (fun a b => df.cols.indexOf a < df.cols.indexOf b)
      (deduplicate df).cols ∧
    (deduplicate df).cols.length = df.cols.toFinset.card ∧
    (deduplicate df).vals.length = df.vals.length ∧
    (∀ i : ℕ, ∀ row, df.vals[i]? = some row → ∀ j : ℕ, ∀ lab,
      ((deduplicate df).cols)[j]? = some lab →
      ((deduplicate df).vals[i]?.bind (fun orow => orow[j]?))
        = some (∑ p ∈ Finset.range df.cols.length,
            if df.cols.getD p "" = lab then row.getD p 0 else 0)) ∧
    (df.cols.Nodup → deduplicate df = df) := by
  refine ⟨rfl, nodup_firstUniq _, mem_firstUniq _, sublist_firstUniq _,
    firstUniq_pairwise _, length_firstUniq _, by simp [deduplicate], ?_, ?_⟩
  · intro i row hrow j lab hlab
    have hmem : row ∈ df.vals := by
      rcases List.getElem?_eq_some.mp hrow with ⟨h1, h2⟩
      exact h2 ▸ List.getElem_mem h1
    simp only [deduplicate] at hlab ⊢
    rw [List.getElem?_map, hrow, Option.map_some', Option.some_bind,
      List.getElem?_map, hlab, Option.map_some']
    rw [sumMatching_eq_sum df.cols row lab (hrect row hmem)]
  · intro hnd
    ext : 1
    · rfl
    · exact firstUniq_eq_self_of_nodup _ hnd
    · simp only [deduplicate]
      rw [firstUniq_eq_self_of_nodup _ hnd]
      have : ∀ row ∈ df.vals,
          df.cols.map (fun lab => sumMatching df.cols row lab) = row := by
        intro row hrow
        exact map_sumMatching_self df.cols row hnd (hrect row hrow)
      calc df.vals.map (fun row => df.cols.map (fun lab => sumMatching df.cols row lab))
          = df.vals.map id := List.map_congr_left (fun row hrow => this row hrow)
        _ = df.vals := List.map_id df.vals

/-- Witness for C7 at the concrete frame with columns `a, a, b` and one
sample row `[1, 2, 4]`. -/
theorem deduplicate_spec_witness :
    deduplicate ⟨["s"], ["a", "a", "b"], [[1, 2, 4]]⟩
      = ⟨["s"], ["a", "b"], [[3, 4]]⟩ ∧
    (deduplicate ⟨["s"], ["a", "a", "b"], [[1, 2, 4]]⟩).cols.Nodup := by
  have h := deduplicate_spec ⟨["s"], ["a", "a", "b"], [[1, 2, 4]]⟩ (by decide)
  refine ⟨?_, h.2.1⟩
  simp only [deduplicate, firstUniq, firstUniqAux, sumMatching,
    List.zip_cons_cons, List.zip_nil_right, List.filter_cons, List.filter_nil,
    List.map_cons, List.map_nil, List.mem_cons, List.mem_singleton,
    List.not_mem_nil, DataFrame.mk.injEq]
  simp
  norm_num

/-! ### UnitConverter (Normalizer)

Modelled from the spec: the Normalizer owns a gene-length table (gene
identifier → positive length) and converts among raw counts, RPKM, TPM
and CLR.  Matrices are in indexed form: `m` samples × `n` genes with
label functions.  Rational arithmetic models the float arithmetic of the
source exactly. -/

/-- A labeled expression matrix in indexed form. -/
@[ext]
structure LabeledMatrix (m n : ℕ) where
  rowLab : Fin m → String
  colLab : Fin n → String
  val : Fin m → Fin n → ℚ

/-- Modelled from the spec: `tpm_from_counts(counts)` — per-gene length
normalization `counts / (length/1e3)` followed by per-sample rescaling
`tpk / (rowSum(tpk)/1e6)`. -/
def tpm_from_counts {m n : ℕ} (lengths : String → ℚ)
    (df : LabeledMatrix m n) : LabeledMatrix m n :=
  { df with val := fun i j =>
      (df.val i j / (lengths (df.colLab j) / 1000)) /
      ((∑ k, df.val i k / (lengths (df.colLab k) / 1000)) / 1000000) }

/-- Modelled from the spec: `tpm_from_rpkm(rpkm)` — per-sample rescaling
`rpkm / (rowSum(rpkm)/1e6)`. -/
def tpm_from_rpkm {m n : ℕ} (df : LabeledMatrix m n) : LabeledMatrix m n :=
  { df with val := fun i j => df.val i j / ((∑ k, df.val i k) / 1000000) }

/-- Modelled from the test fixture: the RPKM matrix derived from a counts
matrix, `rpkm = (counts / (rowSum(counts)/1e6)) / (length/1e3)`. -/
def rpkm_from_counts {m n : ℕ} (lengths : String → ℚ)
    (df : LabeledMatrix m n) : LabeledMatrix m n :=
  { df with val := fun i j =>
      (df.val i j / ((∑ k, df.val i k) / 1000000)) /
      (lengths (df.colLab j) / 1000) }

/-- Modelled from the spec: `tpm_from_subset(tpm, subset_columns)` —
restrict the columns to the selected ones (the default subset selects
all columns, `sel = id`), then renormalize each row to sum to one
million over the restricted column set. -/
def tpm_from_subset {m n : ℕ} (df : LabeledMatrix m n) (c : ℕ)
    (sel : Fin c → Fin n) : LabeledMatrix m c :=
  { rowLab := df.rowLab
    colLab := fun j => df.colLab (sel j)
    val := fun i j =>
      df.val i (sel j) / ((∑ k, df.val i (sel k)) / 1000000) }

lemma sum_div_const {n : ℕ} (f : Fin n → ℚ) (c : ℚ) :
    ∑ j, f j / c = (∑ j, f j) / c := by
  rw [Finset.sum_div]

lemma row_rescale_sum {n : ℕ} (f : Fin n → ℚ) (hS : (∑ j, f j) ≠ 0) :
    ∑ j, f j / ((∑ k, f k) / 1000000) = 1000000 := by
  rw [sum_div_const]
  field_simp

/-- C3: `tpm_from_counts` equals length normalization
(`tpk = counts / (length/1e3)`) followed by per-sample rescaling
(`tpm = tpk / (rowSum(tpk)/1e6)`), preserves the labels, and every row
of the result sums to one million, for every positive counts matrix and
covering table of positive gene lengths. -/
theorem tpm_from_counts_spec (m n : ℕ) (lengths : String → ℚ)
    (df : LabeledMatrix m n) (hn : 0 < n)
    (hpos : ∀ i j, 0 < df.val i j)
    (hlen : ∀ j, 0 < lengths (df.colLab j)) :
    (∀ i j, (tpm_from_counts lengths df).val i j =
      (df.val i j / (lengths (df.colLab j) / 1000)) /
      ((∑ k, df.val i k / (lengths (df.colLab k) / 1000)) / 1000000)) ∧
    (∀ i, ∑ j, (tpm_from_counts lengths df).val i j = 1000000) ∧
    (tpm_from_counts lengths df).rowLab = df.rowLab ∧
    (tpm_from_counts lengths df).colLab = df.colLab := by
  refine ⟨fun i j => rfl, ?_, rfl, rfl⟩
  intro i
  have hT : 0 < ∑ k, df.val i k / (lengths (df.colLab k) / 1000) := by
    apply Finset.sum_pos
    · intro k _
      exact div_pos (hpos i k) (div_pos (hlen k) (by norm_num))
    · exact Finset.univ_nonempty_iff.mpr ⟨⟨0, hn⟩⟩
  exact row_rescale_sum (fun k => df.val i k / (lengths (df.colLab k) / 1000))
    (ne_of_gt hT)

/-- Witness for C3: a 1×1 counts matrix with entry 2 and gene length
1000. -/
theorem tpm_from_counts_spec_witness :
    ∑ j : Fin 1, (tpm_from_counts (fun _ => 1000)
      (LabeledMatrix.mk (m := 1) (n := 1)
        (fun _ => "s") (fun _ => "g") (fun _ _ => 2))).val 0 j
      = 1000000 :=
  (tpm_from_counts_spec 1 1 (fun _ => 1000)
    (LabeledMatrix.mk (fun _ => "s") (fun _ => "g") (fun _ _ => 2))
    (by norm_num) (fun i j => by norm_num) (fun j => by norm_num)).2.1 0

/-- C8: `tpm_from_rpkm` rescales every row of a positive matrix to sum to
one million, and on the RPKM matrix derived from a positive counts matrix
(`rpkm = (counts/(rowSum(counts)/1e6))/(length/1e3)`) it returns the very
matrix `tpm_from_counts` produces — values, row labels and column labels
alike. -/
theorem tpm_from_rpkm_spec (m n : ℕ) (lengths : String → ℚ)
    (df : LabeledMatrix m n) (hn : 0 < n)
    (hpos : ∀ i j, 0 < df.val i j)
    (hlen : ∀ j, 0 < lengths (df.colLab j)) :
    (∀ i, ∑ j, (tpm_from_rpkm df).val i j = 1000000) ∧
    tpm_from_rpkm (rpkm_from_counts lengths df) = tpm_from_counts lengths df := by
  constructor
  · intro i
    have hS : 0 < ∑ k, df.val i k :=
      Finset.sum_pos (fun k _ => hpos i k) (Finset.univ_nonempty_iff.mpr ⟨⟨0, hn⟩⟩)
    exact row_rescale_sum (fun k => df.val i k) (ne_of_gt hS)
  · ext i j
    · rfl
    · rfl
    · show (rpkm_from_counts lengths df).val i j /
          ((∑ k, (rpkm_from_counts lengths df).val i k) / 1000000)
        = (tpm_from_counts lengths df).val i j
      have hS : 0 < ∑ k, df.val i k :=
        Finset.sum_pos (fun k _ => hpos i k) (Finset.univ_nonempty_iff.mpr ⟨⟨0, hn⟩⟩)
      have hT : 0 < ∑ k, df.val i k / (lengths (df.colLab k) / 1000) := by
        apply Finset.sum_pos
        · intro k _
          exact div_pos (hpos i k) (div_pos (hlen k) (by norm_num))
        · exact Finset.univ_nonempty_iff.mpr ⟨⟨0, hn⟩⟩
      have hsum : ∑ k, (rpkm_from_counts lengths df).val i k
          = (1000000 / ∑ k, df.val i k) *
            ∑ k, df.val i k / (lengths (df.colLab k) / 1000) := by
        rw [Finset.mul_sum]
        apply Finset.sum_congr rfl
        intro k _
        show (df.val i k / ((∑ t, df.val i t) / 1000000)) /
            (lengths (df.colLab k) / 1000)
          = 1000000 / (∑ t, df.val i t) *
            (df.val i k / (lengths (df.colLab k) / 1000))
        have h1 : (∑ t, df.val i t) ≠ 0 := ne_of_gt hS
        have h2 : lengths (df.colLab k) ≠ 0 := ne_of_gt (hlen k)
        field_simp
        ring
      show (df.val i j / ((∑ t, df.val i t) / 1000000)) /
          (lengths (df.colLab j) / 1000) /
          ((∑ k, (rpkm_from_counts lengths df).val i k) / 1000000)
        = (df.val i j / (lengths (df.colLab j) / 1000)) /
          ((∑ k, df.val i k / (lengths (df.colLab k) / 1000)) / 1000000)
      rw [hsum]
      set S := ∑ t, df.val i t with hSdef
      set T := ∑ k, df.val i k / (lengths (df.colLab k) / 1000) with hTdef
      set v := df.val i j with hvdef
      set l := lengths (df.colLab j) with hldef
      have h1 : S ≠ 0 := ne_of_gt hS
      have h2 : l ≠ 0 := ne_of_gt (hlen j)
      have h3 : T ≠ 0 := ne_of_gt hT
      field_simp
      ring

/-- Witness for C8: a 1×1 counts matrix with entry 2 and gene length
1000. -/
theorem tpm_from_rpkm_spec_witness :
    tpm_from_rpkm (rpkm_from_counts (fun _ => 1000)
        (LabeledMatrix.mk (m := 1) (n := 1)
          (fun _ => "s") (fun _ => "g") (fun _ _ => 2)))
      = tpm_from_counts (fun _ => 1000)
        (LabeledMatrix.mk (fun _ => "s") (fun _ => "g") (fun _ _ => 2)) :=
  (tpm_from_rpkm_spec 1 1 (fun _ => 1000)
    (LabeledMatrix.mk (fun _ => "s") (fun _ => "g") (fun _ _ => 2))
    (by norm_num) (fun i j => by norm_num) (fun j => by norm_num)).2

/-- C9 (amended): on a TPM matrix — rows summing to one million — the
default, all-columns subset makes `tpm_from_subset` the identity; and
restricting to any non-empty column subset whose restricted row sums are
nonzero (in particular, any subset when the entries are strictly
positive) renormalizes every row to again sum to one million over the
restricted columns. -/
theorem tpm_from_subset_spec (m n : ℕ) (df : LabeledMatrix m n)
    (htpm : ∀ i, ∑ j, df.val i j = 1000000) :
    tpm_from_subset df n id = df ∧
    (∀ c : ℕ, 0 < c → ∀ sel : Fin c → Fin n,
      (∀ i, (∑ k, df.val i (sel k)) ≠ 0) →
      ∀ i, ∑ j, (tpm_from_subset df c sel).val i j = 1000000) := by
  constructor
  · ext i j
    · rfl
    · rfl
    · show df.val i (id j) / ((∑ k, df.val i (id k)) / 1000000) = df.val i j
      simp only [id]
      rw [htpm i]
      norm_num
  · intro c _hc sel hnz i
    exact row_rescale_sum (fun k => df.val i (sel k)) (hnz i)

/-- Witness for C9 (amended) at the 1×2 TPM matrix `[[1e6, 0]]` holding
a zero entry: the default all-columns subset is the identity, and the
singleton subset of the first column (restricted row sum `1e6 ≠ 0`)
renormalizes to one million. -/
theorem tpm_from_subset_spec_witness :
    tpm_from_subset (LabeledMatrix.mk (m := 1) (n := 2) (fun _ => "s")
        (fun _ => "g") (fun _ j => if j = 0 then 1000000 else 0)) 2 id
      = LabeledMatrix.mk (fun _ => "s") (fun _ => "g")
          (fun _ j => if j = 0 then 1000000 else 0) ∧
    ∑ j : Fin 1, (tpm_from_subset (LabeledMatrix.mk (m := 1) (n := 2)
        (fun _ => "s") (fun _ => "g")
        (fun _ j => if j = 0 then 1000000 else 0)) 1 (fun _ => 0)).val 0 j
      = 1000000 := by
  have h := tpm_from_subset_spec 1 2
    (LabeledMatrix.mk (fun _ => "s") (fun _ => "g")
      (fun _ j => if j = 0 then 1000000 else 0))
    (fun i => by simp [Fin.sum_univ_two])
  exact ⟨h.1, h.2 1 (by norm_num) (fun _ => (0 : Fin 2))
    (fun i => by simp [Fin.sum_univ_one]) (0 : Fin 1)⟩

/-- Counterexample to C9 as stated: a valid 1×2 TPM matrix holding a zero
entry; restricting to the zero column and renormalizing yields a row
summing to 0, not to one million. -/
theorem tpm_from_subset_counterexample :
    (∑ j : Fin 2, (LabeledMatrix.mk (m := 1) (n := 2) (fun _ => "s")
        (fun _ => "g") (fun _ j => if j = 0 then 1000000 else 0)).val 0 j
      = 1000000) ∧
    ¬ (∑ j : Fin 1, (tpm_from_subset
        (LabeledMatrix.mk (m := 1) (n := 2) (fun _ => "s") (fun _ => "g")
          (fun _ j => if j = 0 then 1000000 else 0)) 1 (fun _ => 1)).val 0 j
        = 1000000) := by
  constructor
  · simp [Fin.sum_univ_two]
  · simp [tpm_from_subset, Fin.sum_univ_one]

/-! ### CLR transforms

Modelled from the spec: `clr_from_tpm` subtracts, per sample, the row
mean of `log(value)` from `log(value)`; `tpm_from_clr` exponentiates and
rescales each row to sum to one million.  These involve logarithms and
exponentials, so they are modelled over the reals. -/

/-- Modelled from the spec: `clr_from_tpm(tpm)`, the centered log-ratio
transform applied row-wise. -/
noncomputable def clr_from_tpm {m n : ℕ} (x : Fin m → Fin n → ℝ) :
    Fin m → Fin n → ℝ :=
  fun i j => Real.log (x i j) - (∑ k, Real.log (x i k)) / (n : ℝ)

/-- Modelled from the spec: `tpm_from_clr(clr)`, exponentiation followed
by per-sample rescaling to a row sum of one million. -/
noncomputable def tpm_from_clr {m n : ℕ} (c : Fin m → Fin n → ℝ) :
    Fin m → Fin n → ℝ :=
  fun i j => Real.exp (c i j) / ((∑ k, Real.exp (c i k)) / 1000000)

/-- C2: on every strictly positive TPM matrix (positive entries, rows
summing to one million) the composition `tpm_from_clr ∘ clr_from_tpm` is
the identity. -/
theorem clr_round_trip (m n : ℕ) (x : Fin m → Fin n → ℝ)
    (hpos : ∀ i j, 0 < x i j) (hsum : ∀ i, ∑ j, x i j = 1000000) :
    tpm_from_clr (clr_from_tpm x) = x := by
  funext i j
  unfold tpm_from_clr clr_from_tpm
  have hE : (0 : ℝ) < Real.exp ((∑ k, Real.log (x i k)) / (n : ℝ)) :=
    Real.exp_pos _
  have hterm : ∀ j : Fin n,
      Real.exp (Real.log (x i j) - (∑ k, Real.log (x i k)) / (n : ℝ))
        = x i j / Real.exp ((∑ k, Real.log (x i k)) / (n : ℝ)) := by
    intro j
    rw [Real.exp_sub, Real.exp_log (hpos i j)]
  rw [hterm j, Finset.sum_congr rfl (fun k _ => hterm k), ← Finset.sum_div,
    hsum i]
  have hE' : Real.exp ((∑ k, Real.log (x i k)) / (n : ℝ)) ≠ 0 := ne_of_gt hE
  field_simp

/-- Witness for C2 at the 1×1 TPM matrix with single entry one
million. -/
theorem clr_round_trip_witness :
    tpm_from_clr (clr_from_tpm (fun _ _ => (1000000 : ℝ) : Fin 1 → Fin 1 → ℝ))
      = fun _ _ => (1000000 : ℝ) :=
  clr_round_trip 1 1 (fun _ _ => (1000000 : ℝ))
    (fun i j => by norm_num) (fun i => by simp)

/-! ### UnwantedVariationRemover (RUV2)

Modelled from the spec: the remover is constructed with a `center` flag
and empty fitted state; `fit` optionally mean-centers the columns,
restricts to the control columns, takes the singular value decomposition
of that sub-matrix, keeps the smallest number `k` of leading singular
values whose cumulative share of the total squared singular-value mass
reaches `variance_cutoff`, and stores the left singular vectors scaled
by their singular values as the samples × k factor-loading matrix `L`;
`transform` regresses the (re-centered) matrix onto `L` by ordinary
least squares and subtracts the fitted component, re-adding the column
means when `center` is set.  The singular value decomposition itself is
performed by the numerical backend; it enters the model as data
(`SVDData`) whose defining properties (`SVDData.Valid`) are exactly the
contract of an SVD: a decomposition into descending, non-negative
singular values with orthonormal left singular vectors. -/

/-- Mean of one column of a real matrix. -/
noncomputable def colMean {m n : ℕ} (M : Matrix (Fin m) (Fin n) ℝ)
    (j : Fin n) : ℝ :=
  (∑ i, M i j) / (m : ℝ)

/-- Subtract each column's mean from the column. -/
noncomputable def centerCols {m n : ℕ} (M : Matrix (Fin m) (Fin n) ℝ) :
    Matrix (Fin m) (Fin n) ℝ :=
  fun i j => M i j - colMean M j

/-- The control sub-matrix used by `fit`: the (optionally column
centered) matrix restricted to the control columns. -/
noncomputable def controlSub {m n c : ℕ} (center : Bool)
    (Y : Matrix (Fin m) (Fin n) ℝ) (ctrl : Fin c → Fin n) :
    Matrix (Fin m) (Fin c) ℝ :=
  fun i a => (if center then centerCols Y else Y) i (ctrl a)

/-- The singular value decomposition of an `m × c` matrix as returned by
the numerical backend: `r` singular triples. -/
structure SVDData (m c : ℕ) where
  r : ℕ
  s : ℕ → ℝ
  u : ℕ → Fin m → ℝ
  v : ℕ → Fin c → ℝ

/-- The contract of a singular value decomposition of `A`: `A` is the sum
of the rank-one triples, the left singular vectors are orthonormal, and
the singular values are non-negative and ordered descending. -/
def SVDData.Valid {m c : ℕ} (d : SVDData m c)
    (A : Matrix (Fin m) (Fin c) ℝ) : Prop :=
  (∀ i j, A i j = ∑ t ∈ Finset.range d.r, d.s t * d.u t i * d.v t j) ∧
  (∀ t, t < d.r → ∀ t', t' < d.r →
    (∑ i, d.u t i * d.u t' i) = if t = t' then 1 else 0) ∧
  (∀ t, 0 ≤ d.s t) ∧
  (∀ t t', t ≤ t' → d.s t' ≤ d.s t)

open scoped Classical in
/-- Modelled from the spec: the retained rank — the smallest number of
leading singular values whose cumulative share of the total squared
singular-value mass reaches the cutoff (all of them when no count
suffices). -/
noncomputable def rank_select (r : ℕ) (s : ℕ → ℝ) (cutoff : ℝ) : ℕ :=
  if h : ∃ k, cutoff * (∑ i ∈ Finset.range r, s i ^ 2)
      ≤ ∑ i ∈ Finset.range k, s i ^ 2
  then Nat.find h else r

/-- The factor-loading matrix `L`: the first `k` left singular vectors,
each scaled by its singular value, as the columns of a samples × k
matrix. -/
def ruvL {m c : ℕ} (d : SVDData m c) (k : ℕ) : Matrix (Fin m) (Fin k) ℝ :=
  fun i a => d.s a.val * d.u a.val i

/-- The mutable state of an UnwantedVariationRemover: the `center` flag
and the fitted factor-loading matrix (`none` before `fit`). -/
structure RUVState (m : ℕ) where
  center : Bool
  L : Option ((k : ℕ) × Matrix (Fin m) (Fin k) ℝ)

/-- Modelled from the spec: `RemoveUnwantedVariation(center)` — a fresh
instance with empty fitted state. -/
def RemoveUnwantedVariation (m : ℕ) (center : Bool) : RUVState m :=
  ⟨center, none⟩

/-- The number of retained factors of the fitted state, when fitted. -/
def RUVState.numFactors {m : ℕ} (st : RUVState m) : Option ℕ :=
  st.L.map Sigma.fst

/-- Modelled from the spec: `fit(matrix, control_indices,
variance_cutoff)` — select the retained rank from the singular values of
the control sub-matrix and store the scaled left singular vectors as
`L`.  The decomposition `d` is the one the numerical backend returns for
`controlSub st.center Y ctrl`; theorems tie it to the matrix through
`SVDData.Valid`. -/
noncomputable def RUVState.fit {m n c : ℕ} (st : RUVState m)
    (Y : Matrix (Fin m) (Fin n) ℝ) (ctrl : Fin c → Fin n) (cutoff : ℝ)
    (d : SVDData m c) : RUVState m :=
  ⟨st.center,
   some ⟨rank_select d.r d.s cutoff, ruvL d (rank_select d.r d.s cutoff)⟩⟩

/-- Modelled from the spec: `transform(matrix)` — fail when unfitted;
otherwise center the columns when `center` is set, regress onto `L` by
ordinary least squares (`L⁺ = (Lᵀ·L)⁻¹·Lᵀ` for the full-column-rank `L`
that `fit` produces), subtract the fitted component and re-add the
column means that were subtracted. -/
noncomputable def RUVState.transform {m n : ℕ} (st : RUVState m)
    (M : Matrix (Fin m) (Fin n) ℝ) : Option (Matrix (Fin m) (Fin n) ℝ) :=
  match st.L with
  | none => none
  | some ⟨_, L⟩ =>
      let Mc := if st.center then centerCols M else M
      let resid := Mc - L * ((L.transpose * L)⁻¹ * (L.transpose * Mc))
      some (if st.center then fun i j => resid i j + colMean M j else resid)

/-- Modelled from the spec: `fit_transform(matrix, control_indices,
variance_cutoff)` — `fit` then `transform` on the same matrix. -/
noncomputable def RUVState.fit_transform {m n c : ℕ} (st : RUVState m)
    (Y : Matrix (Fin m) (Fin n) ℝ) (ctrl : Fin c → Fin n) (cutoff : ℝ)
    (d : SVDData m c) : Option (Matrix (Fin m) (Fin n) ℝ) :=
  (st.fit Y ctrl cutoff d).transform Y

lemma sum_sq_split (s : ℕ → ℝ) (k r : ℕ) (hk : k ≤ r) :
    ∑ i ∈ Finset.range r, s i ^ 2
      = (∑ i ∈ Finset.range k, s i ^ 2) + ∑ i ∈ Finset.Ico k r, s i ^ 2 := by
  rw [Finset.range_eq_Ico, ← Finset.sum_Ico_consecutive _ (Nat.zero_le k) hk]

lemma rank_select_one (r : ℕ) (s : ℕ → ℝ) (hnn : ∀ t, 0 ≤ s t)
    (hdesc : ∀ t t', t ≤ t' → s t' ≤ s t) :
    rank_select r s 1 ≤ r ∧
    (∀ t, rank_select r s 1 ≤ t → t < r → s t = 0) ∧
    (∀ a, a < rank_select r s 1 → 0 < s a) := by
  have hex : ∃ k, (1 : ℝ) * (∑ i ∈ Finset.range r, s i ^ 2)
      ≤ ∑ i ∈ Finset.range k, s i ^ 2 := ⟨r, (one_mul _).le⟩
  have hval : rank_select r s 1 = Nat.find hex := by
    rw [rank_select, dif_pos hex]
  have hle : rank_select r s 1 ≤ r := by
    rw [hval]; exact Nat.find_le (one_mul _).le
  have hspec : (1 : ℝ) * (∑ i ∈ Finset.range r, s i ^ 2)
      ≤ ∑ i ∈ Finset.range (rank_select r s 1), s i ^ 2 := by
    rw [hval]; exact Nat.find_spec hex
  have hmin : ∀ j, j < rank_select r s 1 →
      ¬ ((1 : ℝ) * (∑ i ∈ Finset.range r, s i ^ 2)
          ≤ ∑ i ∈ Finset.range j, s i ^ 2) := by
    intro j hj
    rw [hval] at hj
    exact Nat.find_min hex hj
  refine ⟨hle, ?_, ?_⟩
  · intro t hkt htr
    have hsplit := sum_sq_split s (rank_select r s 1) r hle
    rw [one_mul] at hspec
    have htail : ∑ i ∈ Finset.Ico (rank_select r s 1) r, s i ^ 2 ≤ 0 := by
      linarith
    have hzero : ∀ i ∈ Finset.Ico (rank_select r s 1) r, s i ^ 2 = 0 := by
      have hnn' : ∀ i ∈ Finset.Ico (rank_select r s 1) r, 0 ≤ s i ^ 2 :=
        fun i _ => sq_nonneg (s i)
      have := Finset.sum_eq_zero_iff_of_nonneg hnn'
      exact this.mp (le_antisymm htail (Finset.sum_nonneg hnn'))
    have := hzero t (Finset.mem_Ico.mpr ⟨hkt, htr⟩)
    exact sq_eq_zero_iff.mp this
  · intro a ha
    rcases lt_or_eq_of_le (hnn a) with hlt | heq
    · exact hlt
    · exfalso
      have haz : s a = 0 := heq.symm
      have har : a < r := lt_of_lt_of_le ha hle
      have htail0 : ∀ i ∈ Finset.Ico a r, s i ^ 2 = 0 := by
        intro i hi
        have hai : a ≤ i := (Finset.mem_Ico.mp hi).1
        have : s i ≤ 0 := haz ▸ hdesc a i hai
        have : s i = 0 := le_antisymm this (hnn i)
        rw [this]; ring
      have hsplit := sum_sq_split s a r (le_of_lt har)
      rw [Finset.sum_eq_zero htail0, add_zero] at hsplit
      exact hmin a ha (by rw [one_mul, hsplit])

lemma ruvG_eq {m c : ℕ} (d : SVDData m c) (A : Matrix (Fin m) (Fin c) ℝ)
    (hv : d.Valid A) (k : ℕ) (hk : k ≤ d.r) :
    (ruvL d k).transpose * ruvL d k
      = Matrix.diagonal (fun a : Fin k => d.s a.val ^ 2) := by
  obtain ⟨_, horth, _, _⟩ := hv
  ext a b
  rw [Matrix.mul_apply]
  simp only [Matrix.transpose_apply, ruvL]
  have h1 : ∀ i : Fin m, d.s a.val * d.u a.val i * (d.s b.val * d.u b.val i)
      = d.s a.val * d.s b.val * (d.u a.val i * d.u b.val i) := fun i => by ring
  rw [Finset.sum_congr rfl (fun i _ => h1 i), ← Finset.mul_sum,
    horth a.val (lt_of_lt_of_le a.isLt hk) b.val (lt_of_lt_of_le b.isLt hk)]
  by_cases hab : a = b
  · subst hab
    rw [if_pos rfl, Matrix.diagonal_apply_eq]
    ring
  · have hvne : a.val ≠ b.val := fun h => hab (Fin.val_injective h)
    rw [if_neg hvne, Matrix.diagonal_apply_ne _ hab]
    ring

lemma ruvG_inv {m c : ℕ} (d : SVDData m c) (A : Matrix (Fin m) (Fin c) ℝ)
    (hv : d.Valid A) (k : ℕ) (hk : k ≤ d.r)
    (hpos : ∀ a, a < k → 0 < d.s a) :
    ((ruvL d k).transpose * ruvL d k)⁻¹
      = Matrix.diagonal (fun a : Fin k => (d.s a.val ^ 2)⁻¹) := by
  rw [ruvG_eq d A hv k hk]
  apply Matrix.inv_eq_right_inv
  rw [Matrix.diagonal_mul_diagonal]
  have heq : (fun a : Fin k => d.s a.val ^ 2 * (d.s a.val ^ 2)⁻¹)
      = fun _ : Fin k => (1 : ℝ) := by
    funext a
    exact mul_inv_cancel₀ (pow_ne_zero 2 (ne_of_gt (hpos a.val a.isLt)))
  rw [heq, Matrix.diagonal_one]

lemma sum_decomp_trunc {m c : ℕ} (d : SVDData m c) (k : ℕ) (hk : k ≤ d.r)
    (hzero : ∀ t, k ≤ t → t < d.r → d.s t = 0) (i : Fin m) (j : Fin c) :
    ∑ t ∈ Finset.range d.r, d.s t * d.u t i * d.v t j
      = ∑ t ∈ Finset.range k, d.s t * d.u t i * d.v t j := by
  rw [Finset.range_eq_Ico, ← Finset.sum_Ico_consecutive _ (Nat.zero_le k) hk]
  have h0 : ∑ t ∈ Finset.Ico k d.r, d.s t * d.u t i * d.v t j = 0 :=
    Finset.sum_eq_zero (fun t ht => by
      rw [hzero t (Finset.mem_Ico.mp ht).1 (Finset.mem_Ico.mp ht).2]
      ring)
  rw [h0, add_zero, ← Finset.range_eq_Ico]

lemma ruv_proj_recovers {m c : ℕ} (A : Matrix (Fin m) (Fin c) ℝ)
    (d : SVDData m c) (hv : d.Valid A) (k : ℕ) (hk : k ≤ d.r)
    (hzero : ∀ t, k ≤ t → t < d.r → d.s t = 0)
    (hpos : ∀ a, a < k → 0 < d.s a) :
    ruvL d k * (((ruvL d k).transpose * ruvL d k)⁻¹ *
      ((ruvL d k).transpose * A)) = A := by
  obtain ⟨hdecomp, horth, hnn, hdesc⟩ := hv
  have hLtA : ∀ (a : Fin k) (j : Fin c),
      ((ruvL d k).transpose * A) a j = d.s a.val ^ 2 * d.v a.val j := by
    intro a j
    rw [Matrix.mul_apply]
    simp only [Matrix.transpose_apply, ruvL]
    have hterm : ∀ i : Fin m, d.s a.val * d.u a.val i * A i j
        = ∑ t ∈ Finset.range d.r,
            d.s a.val * d.s t * d.v t j * (d.u a.val i * d.u t i) := by
      intro i
      rw [hdecomp i j, Finset.mul_sum]
      apply Finset.sum_congr rfl
      intro t _
      ring
    rw [Finset.sum_congr rfl (fun i _ => hterm i), Finset.sum_comm]
    have hin : ∀ t ∈ Finset.range d.r,
        (∑ i, d.s a.val * d.s t * d.v t j * (d.u a.val i * d.u t i))
          = if a.val = t then d.s a.val * d.s t * d.v t j else 0 := by
      intro t ht
      rw [← Finset.mul_sum,
        horth a.val (lt_of_lt_of_le a.isLt hk) t (Finset.mem_range.mp ht)]
      by_cases hat : a.val = t
      · rw [if_pos hat, if_pos hat, mul_one]
      · rw [if_neg hat, if_neg hat, mul_zero]
    rw [Finset.sum_congr rfl hin, Finset.sum_ite_eq,
      if_pos (Finset.mem_range.mpr (lt_of_lt_of_le a.isLt hk))]
    ring
  have hmid : ∀ (a : Fin k) (j : Fin c),
      (((ruvL d k).transpose * ruvL d k)⁻¹ *
        ((ruvL d k).transpose * A)) a j = d.v a.val j := by
    intro a j
    rw [ruvG_inv d A ⟨hdecomp, horth, hnn, hdesc⟩ k hk hpos,
      Matrix.diagonal_mul, hLtA]
    exact inv_mul_cancel_left₀
      (pow_ne_zero 2 (ne_of_gt (hpos a.val a.isLt))) _
  ext i j
  rw [Matrix.mul_apply, Finset.sum_congr rfl
    (fun a _ => by rw [hmid a j])]
  simp only [ruvL]
  rw [hdecomp i j, sum_decomp_trunc d k hk hzero i j]
  exact Fin.sum_univ_eq_sum_range (fun t => d.s t * d.u t i * d.v t j) k

lemma colMean_meanRow {m n : ℕ} (Y : Matrix (Fin m) (Fin n) ℝ) (j : Fin n) :
    colMean (fun _ j' => colMean Y j' : Matrix (Fin m) (Fin n) ℝ) j
      = colMean Y j := by
  show (∑ _i : Fin m, colMean Y j) / (m : ℝ) = colMean Y j
  rw [Finset.sum_const, Finset.card_univ, Fintype.card_fin, nsmul_eq_mul]
  rcases Nat.eq_zero_or_pos m with hm | hm
  · subst hm
    have h0 : colMean Y j = 0 := by
      show (∑ i : Fin 0, Y i j) / ((0 : ℕ) : ℝ) = 0
      simp
    rw [h0]
    simp
  · exact mul_div_cancel_left₀ _
      (Nat.cast_ne_zero.mpr (Nat.pos_iff_ne_zero.mp hm))

/-- C1: on a pure low-rank nuisance matrix `Y = W·alpha`, fitting with
`center = true`, all columns as controls and `variance_cutoff = 1`, and
transforming `Y`, returns a matrix whose column means equal `Y`'s column
means and whose residual after subtracting those column means is
identically zero.  `d` is the singular value decomposition the backend
returns for the centered control sub-matrix. -/
theorem ruv_fit_transform_noX (m n p : ℕ) (W : Matrix (Fin m) (Fin p) ℝ)
    (alpha : Matrix (Fin p) (Fin n) ℝ) (Y : Matrix (Fin m) (Fin n) ℝ)
    (hY : Y = W * alpha) (d : SVDData m n)
    (hv : d.Valid (controlSub true Y id)) :
    ∃ Z, (RemoveUnwantedVariation m true).fit_transform Y id 1 d = some Z ∧
      (∀ j, colMean Z j = colMean Y j) ∧
      (∀ i j, Z i j - colMean Z j = 0) := by
  obtain ⟨hle, hzero, hpos⟩ := rank_select_one d.r d.s hv.2.2.1 hv.2.2.2
  have hvc : d.Valid (centerCols Y) := hv
  have hproj := ruv_proj_recovers (centerCols Y) d hvc _ hle hzero hpos
  refine ⟨fun _ j => colMean Y j, ?_, ?_, ?_⟩
  · show (RUVState.transform
        ⟨true, some ⟨rank_select d.r d.s 1,
          ruvL d (rank_select d.r d.s 1)⟩⟩ Y)
      = some (fun _ j => colMean Y j)
    simp only [RUVState.transform, if_true]
    rw [hproj, sub_self]
    congr 1
    funext i j
    rw [Matrix.zero_apply, zero_add]
  · intro j
    exact colMean_meanRow Y j
  · intro i j
    show colMean Y j - colMean (fun _ j' => colMean Y j') j = 0
    rw [colMean_meanRow Y j, sub_self]

/-- Witness for C1 at the 1×1 zero matrix `Y = 0·0` with the trivial
decomposition of its centered control sub-matrix. -/
theorem ruv_fit_transform_noX_witness :
    ∃ Z, (RemoveUnwantedVariation 1 true).fit_transform
        (0 : Matrix (Fin 1) (Fin 1) ℝ) id 1
        ⟨1, fun _ => 0, fun _ _ => 1, fun _ _ => 1⟩ = some Z ∧
      (∀ j, colMean Z j = colMean (0 : Matrix (Fin 1) (Fin 1) ℝ) j) ∧
      (∀ i j, Z i j - colMean Z j = 0) := by
  apply ruv_fit_transform_noX 1 1 1 0 0 0 (by rw [Matrix.zero_mul])
  refine ⟨?_, ?_, fun t => le_refl 0, fun t t' h => le_refl 0⟩
  · intro i j
    show centerCols (0 : Matrix (Fin 1) (Fin 1) ℝ) i j = _
    simp [centerCols, colMean]
  · intro t ht t' ht'
    have h1 : t = 0 := Nat.lt_one_iff.mp ht
    have h2 : t' = 0 := Nat.lt_one_iff.mp ht'
    subst h1; subst h2
    simp

lemma rank_select_eq_of_exact (r : ℕ) (s : ℕ → ℝ) (k0 : ℕ) (hk0r : k0 ≤ r)
    (hpos : ∀ t, t < k0 → 0 < s t) (hzero : ∀ t, k0 ≤ t → s t = 0) :
    rank_select r s 1 = k0 := by
  have hex : ∃ k, (1 : ℝ) * (∑ i ∈ Finset.range r, s i ^ 2)
      ≤ ∑ i ∈ Finset.range k, s i ^ 2 := ⟨r, (one_mul _).le⟩
  rw [rank_select, dif_pos hex, Nat.find_eq_iff]
  constructor
  · have h0 : ∑ i ∈ Finset.Ico k0 r, s i ^ 2 = 0 :=
      Finset.sum_eq_zero (fun t ht => by
        rw [hzero t (Finset.mem_Ico.mp ht).1]; ring)
    rw [one_mul, sum_sq_split s k0 r hk0r, h0, add_zero]
  · intro j hj
    have hjr : j < r := lt_of_lt_of_le hj hk0r
    have hmem : j ∈ Finset.Ico j r := Finset.mem_Ico.mpr ⟨le_refl j, hjr⟩
    have hsq : 0 < s j ^ 2 := pow_pos (hpos j hj) 2
    have hsle : s j ^ 2 ≤ ∑ i ∈ Finset.Ico j r, s i ^ 2 :=
      Finset.single_le_sum (fun t _ => sq_nonneg (s t)) hmem
    rw [one_mul, sum_sq_split s j r (le_of_lt hjr)]
    intro habs
    linarith

/-- C4: when the singular value decomposition of the control sub-matrix
has exactly ten positive singular values (the planted nuisance
dimensionality of `Y`) and `variance_cutoff = 1`, the fitted
factor-loading matrix `L` is a samples × k matrix whose retained rank
`k` — its column count — equals ten. -/
theorem ruv_rank_estimate (m n c : ℕ) (Y : Matrix (Fin m) (Fin n) ℝ)
    (ctrl : Fin c → Fin n) (d : SVDData m c)
    (hv : d.Valid (controlSub false Y ctrl))
    (hr : 10 ≤ d.r)
    (hpos10 : ∀ t, t < 10 → 0 < d.s t)
    (hzero10 : ∀ t, 10 ≤ t → d.s t = 0) :
    ∃ L : Matrix (Fin m) (Fin 10) ℝ,
      ((RemoveUnwantedVariation m false).fit Y ctrl 1 d).L = some ⟨10, L⟩ ∧
      ((RemoveUnwantedVariation m false).fit Y ctrl 1 d).numFactors
        = some 10 := by
  have hks : rank_select d.r d.s 1 = 10 :=
    rank_select_eq_of_exact d.r d.s 10 hr hpos10 hzero10
  refine ⟨ruvL d 10, ?_, ?_⟩
  · simp only [RUVState.fit, RemoveUnwantedVariation]
    exact congrArg some (by rw [hks])
  · simp only [RUVState.numFactors, RUVState.fit, RemoveUnwantedVariation,
      Option.map_some']
    exact congrArg some hks

/-- The trivial rank-10 decomposition of the 10×10 identity matrix, used
to witness the rank-estimation theorem. -/
def svdId10 : SVDData 10 10 :=
  ⟨10, fun t => if t < 10 then 1 else 0,
   fun t i => if (i : ℕ) = t then 1 else 0,
   fun t j => if (j : ℕ) = t then 1 else 0⟩

lemma svdId10_decomp (i j : Fin 10) :
    (1 : Matrix (Fin 10) (Fin 10) ℝ) i j
      = ∑ t ∈ Finset.range 10, (if t < 10 then (1 : ℝ) else 0) *
          (if (i : ℕ) = t then 1 else 0) * (if (j : ℕ) = t then 1 else 0) := by
  have hcong : ∀ t ∈ Finset.range 10,
      (if t < 10 then (1 : ℝ) else 0) * (if (i : ℕ) = t then 1 else 0) *
        (if (j : ℕ) = t then 1 else 0)
      = if (i : ℕ) = t then (if (j : ℕ) = t then (1 : ℝ) else 0) else 0 := by
    intro t ht
    rw [if_pos (Finset.mem_range.mp ht), one_mul]
    by_cases h1 : (i : ℕ) = t
    · rw [if_pos h1, one_mul, if_pos h1]
    · rw [if_neg h1, zero_mul, if_neg h1]
  rw [Finset.sum_congr rfl hcong, Finset.sum_ite_eq,
    if_pos (Finset.mem_range.mpr i.isLt), Matrix.one_apply]
  by_cases hij : i = j
  · subst hij; simp
  · rw [if_neg hij, if_neg (fun h => hij (Fin.val_injective h.symm))]

lemma svdId10_orth (t : ℕ) (ht : t < 10) (t' : ℕ) (ht' : t' < 10) :
    (∑ i : Fin 10, (if (i : ℕ) = t then (1 : ℝ) else 0) *
      (if (i : ℕ) = t' then 1 else 0)) = if t = t' then 1 else 0 := by
  have hcong : ∀ i : Fin 10,
      (if (i : ℕ) = t then (1 : ℝ) else 0) * (if (i : ℕ) = t' then 1 else 0)
        = if i = (⟨t, ht⟩ : Fin 10) then
            (if (i : ℕ) = t' then (1 : ℝ) else 0) else 0 := by
    intro i
    by_cases h1 : (i : ℕ) = t
    · rw [if_pos h1, one_mul, if_pos (Fin.ext h1)]
    · rw [if_neg h1, zero_mul, if_neg (fun h => h1 (by rw [h]))]
  rw [Finset.sum_congr rfl (fun i _ => hcong i), Finset.sum_ite_eq',
    if_pos (Finset.mem_univ _)]

/-- Witness for C4: the 10×10 identity matrix with its trivial rank-10
decomposition; all ten singular values are 1. -/
theorem ruv_rank_estimate_witness :
    ∃ L : Matrix (Fin 10) (Fin 10) ℝ,
      ((RemoveUnwantedVariation 10 false).fit
        (1 : Matrix (Fin 10) (Fin 10) ℝ) id 1 svdId10).L = some ⟨10, L⟩ ∧
      ((RemoveUnwantedVariation 10 false).fit
        (1 : Matrix (Fin 10) (Fin 10) ℝ) id 1 svdId10).numFactors
        = some 10 := by
  apply ruv_rank_estimate 10 10 10 1 id svdId10
  · refine ⟨fun i j => svdId10_decomp i j, fun t ht t' ht' => svdId10_orth t ht t' ht', ?_, ?_⟩
    · intro t
      show (0 : ℝ) ≤ if t < 10 then 1 else 0
      by_cases h : t < 10
      · rw [if_pos h]; norm_num
      · rw [if_neg h]
    · intro t t' h
      show (if t' < 10 then (1 : ℝ) else 0) ≤ if t < 10 then 1 else 0
      by_cases h' : t' < 10
      · rw [if_pos h', if_pos (lt_of_le_of_lt h h')]
      · rw [if_neg h']
        by_cases h2 : t < 10
        · rw [if_pos h2]; norm_num
        · rw [if_neg h2]
  · norm_num [svdId10]
  · intro t ht
    show (0 : ℝ) < if t < 10 then 1 else 0
    rw [if_pos ht]
    norm_num
  · intro t ht
    show (if t < 10 then (1 : ℝ) else 0) = 0
    rw [if_neg (Nat.not_lt.mpr ht)]

/-- C10: `transform` on a freshly constructed, unfitted
UnwantedVariationRemover fails (returns no matrix) for every input,
while after any successful `fit` the same `transform` call succeeds. -/
theorem transform_requires_fit (m n : ℕ) (center : Bool)
    (M : Matrix (Fin m) (Fin n) ℝ) :
    (RemoveUnwantedVariation m center).transform M = none ∧
    (∀ (q c : ℕ) (Y : Matrix (Fin m) (Fin q) ℝ) (ctrl : Fin c → Fin q)
      (cutoff : ℝ) (d : SVDData m c),
      ∃ Z, ((RemoveUnwantedVariation m center).fit Y ctrl cutoff d).transform M
        = some Z) :=
  ⟨rfl, fun _ _ _ _ _ _ => ⟨_, rfl⟩⟩

end Genemunge
